import Mathlib

/-!
Shallow embedding of the domain-extraction and configuration scripts of the
AdGuard-DNS-Divert repository (`scripts/extract_domains.py`,
`scripts/generate_config.py`, `scripts/domain_to_quanx.py`) together with
proofs about the embedded functions.

Python strings are modelled through their character lists (`String.data`).
Line splitting models `str.splitlines` for `\n`-terminated text, stripping
models `str.strip` for ASCII whitespace, and the anchored regular
expressions of the source are modelled by deterministic recognisers; in
particular Python's `$` anchor, which also matches just before one final
newline, is modelled faithfully (`atEnd`).  External collaborators
(the HTTP fetch, `base64.b64decode`, the dispatcher used by the source
aggregator) are taken as function parameters, mirroring the component
boundaries of the scripts.
-/

namespace ADD

/-- Python `str.strip` whitespace test (the ASCII whitespace characters). -/
def isPySpace (c : Char) : Bool :=
  c == ' ' || c == '\t' || c == '\n' || c == '\r' || c == '\x0b' || c == '\x0c'

/-- Python `str.strip()` on a character list. -/
def pyStrip (l : List Char) : List Char :=
  ((l.dropWhile isPySpace).reverse.dropWhile isPySpace).reverse

/-- Python `str.strip()` on strings. -/
def pyStripS (s : String) : String := String.mk (pyStrip s.data)

/-- Split a character list on a separator character; models Python
`str.split(sep)` for a one-character separator. -/
def splitOnC (sep : Char) : List Char → List (List Char)
  | [] => [[]]
  | c :: cs =>
    if c = sep then [] :: splitOnC sep cs
    else
      match splitOnC sep cs with
      | g :: gs => (c :: g) :: gs
      | [] => [[c]]

/-- Python `str.splitlines()` for `\n`-terminated text: like splitting on
`\n` but without a final empty piece when the text ends with a newline. -/
def pySplitlines (l : List Char) : List (List Char) :=
  if l.isEmpty then []
  else
    let ps := splitOnC '\n' l
    if ps.getLast? = some [] then ps.dropLast else ps

/-- The raw lines of a piece of content, as strings. -/
def pyLines (content : String) : List String :=
  (pySplitlines content.data).map (fun l => String.mk l)

/-- Python `str.startswith`. -/
def startsW (s pre : String) : Bool := pre.data.isPrefixOf s.data

/-- Python's substring test `pat in s` on character lists. -/
def containsSubB (s pat : List Char) : Bool := s.tails.any (fun t => pat.isPrefixOf t)

/-- A character matched by the regex class `[-a-zA-Z0-9]`. -/
def labelChar (c : Char) : Bool := c.isAlphanum || c == '-'

/-- Consume the `[-a-zA-Z0-9]*` part of a label (maximal munch; the
following regex element is never a label character, so this is exact). -/
def dropLabel (cs : List Char) : List Char := cs.dropWhile labelChar

/-- Python's `$` anchor for `re.match`: end of input, or just before one
final newline. -/
def atEnd : List Char → Bool
  | [] => true
  | [c] => c == '\n'
  | _ => false

/-- Fuelled matcher for the regex tail `(\.[a-zA-Z0-9][-a-zA-Z0-9]*)+$`
of `DOMAIN_PATTERN` (fuel only to make the definition structural; each
step consumes at least two characters). -/
def matchTailF : Nat → List Char → Bool
  | 0, _ => false
  | f + 1, '.' :: c :: cs =>
      c.isAlphanum && (let r := dropLabel cs; atEnd r || matchTailF f r)
  | _ + 1, _ => false

/-- Matcher for `DOMAIN_PATTERN =
`^[a-zA-Z0-9][-a-zA-Z0-9]*(\.[a-zA-Z0-9][-a-zA-Z0-9]*)+$`` applied with
`re.match` (truthiness of the match object). -/
def matchDP : List Char → Bool
  | c :: cs => c.isAlphanum && matchTailF (cs.length + 1) (dropLabel cs)
  | [] => false

/-- Continue a match after a literal `.`; anything else fails. -/
def dotThen (f : List Char → Bool) : List Char → Bool
  | '.' :: r2 => f r2
  | _ => false

/-- Matcher for `^(\d{1,3}\.){n}\d{1,3}$`: a run of one to three digits,
then `n` more dot-separated runs, then the `$` anchor (the greedy
`\d{1,3}` with backtracking is equivalent to the maximal digit run since
`\d` cannot match the following `.`). -/
def ipv4From : Nat → List Char → Bool
  | 0, l =>
      !(l.takeWhile Char.isDigit).isEmpty &&
      decide ((l.takeWhile Char.isDigit).length ≤ 3) &&
      atEnd (l.dropWhile Char.isDigit)
  | k + 1, l =>
      !(l.takeWhile Char.isDigit).isEmpty &&
      decide ((l.takeWhile Char.isDigit).length ≤ 3) &&
      dotThen (ipv4From k) (l.dropWhile Char.isDigit)

/-- Matcher for the `ipv4_pattern` regex of `is_valid_domain`. -/
def ipv4Match (l : List Char) : Bool := ipv4From 3 l

/-- Strip one leading dot (`if domain.startswith('.'): domain = domain[1:]`). -/
def stripDot (l : List Char) : List Char :=
  match l with
  | '.' :: rest => rest
  | l => l

/-- `is_valid_domain` of `scripts/extract_domains.py` (lines 61-77):
reject empty or over-253-character input, strip one leading dot, reject a
trailing dot, consecutive dots and dotted-quad IPv4 literals, then match
`DOMAIN_PATTERN`. -/
def is_valid_domain (s : String) : Bool :=
  if s.data.isEmpty || 253 < s.data.length then false
  else if (stripDot s.data).getLast? = some '.' then false
  else if containsSubB (stripDot s.data) ['.', '.'] then false
  else if ipv4Match (stripDot s.data) then false
  else matchDP (stripDot s.data)

/-- Strip one final newline; what Python's `$` anchor lets a fully
anchored pattern ignore. -/
def stripNL (l : List Char) : List Char :=
  if l.getLast? = some '\n' then l.dropLast else l

/-- Fuelled greedy matcher for `(\.[a-zA-Z0-9][-a-zA-Z0-9]*)*` inside
`URL_PATTERN`: returns the consumed characters and the rest. -/
def urlGroupsF : Nat → List Char → (List Char × List Char)
  | 0, l => ([], l)
  | f + 1, '.' :: c :: cs =>
    if c.isAlphanum then
      let p := cs.takeWhile labelChar
      let r := cs.dropWhile labelChar
      let g := urlGroupsF f r
      ('.' :: c :: (p ++ g.1), g.2)
    else ([], '.' :: c :: cs)
  | _ + 1, l => ([], l)

/-- Match the capture group of `URL_PATTERN` starting right after
`https?://`: `[a-zA-Z0-9][-a-zA-Z0-9]*(\.[a-zA-Z0-9][-a-zA-Z0-9]*)+`. -/
def urlSearchAt : List Char → Option (List Char)
  | c :: cs =>
    if c.isAlphanum then
      let p := cs.takeWhile labelChar
      let r := cs.dropWhile labelChar
      let g := (urlGroupsF (r.length + 1) r).1
      if g.isEmpty then none else some (c :: (p ++ g))
    else none
  | [] => none

/-- `URL_PATTERN.search`: scan left to right for `https?://` followed by a
domain, returning the first captured domain. -/
def urlSearch : List Char → Option (List Char)
  | [] => none
  | c :: cs =>
    (if "https://".data.isPrefixOf (c :: cs) then urlSearchAt ((c :: cs).drop 8)
     else if "http://".data.isPrefixOf (c :: cs) then urlSearchAt ((c :: cs).drop 7)
     else none).orElse (fun _ => urlSearch cs)

/-- `DOMAIN_PREFIX_PATTERN.match` together with its `group(1)`:
`^\.([a-zA-Z0-9][-a-zA-Z0-9]*(\.[a-zA-Z0-9][-a-zA-Z0-9]*)+)$`. -/
def prefixCapture (line : String) : Option String :=
  match line.data with
  | '.' :: rest => if matchDP rest then some (String.mk (stripNL rest)) else none
  | _ => none

/-- One already-stripped, non-header line of
`extract_domains_from_plain_text`: leading-dot form, direct domain, or
URL-embedded domain. -/
def plainLineDomains (line : String) : Finset String :=
  if startsW line "." then
    match prefixCapture line with
    | some d => if is_valid_domain d then {d} else ∅
    | none => ∅
  else if is_valid_domain line then {line}
  else
    match urlSearch line.data with
    | some d =>
      let ds := String.mk d
      if is_valid_domain ds then {ds} else ∅
    | none => ∅

/-- The line loop of `extract_domains_from_plain_text`; the boolean is the
`header_passed` flag. -/
def plainLoop : Bool → List String → Finset String
  | _, [] => ∅
  | hp, raw :: rest =>
    if pyStripS raw = "" || startsW (pyStripS raw) "#" then plainLoop hp rest
    else if !hp && containsSubB (pyStripS raw).data "NAME:".data then plainLoop true rest
    else plainLineDomains (pyStripS raw) ∪ plainLoop hp rest

/-- `extract_domains_from_plain_text` of `scripts/extract_domains.py`
(lines 407-445). -/
def extract_domains_from_plain_text (content : String) : Finset String :=
  plainLoop false (pyLines content)

/-- The normal per-line steps of the plain-text extractor with no header
handling at all (what the loop does once `header_passed` is true). -/
def plainNoHeader : List String → Finset String
  | [] => ∅
  | raw :: rest =>
    if pyStripS raw = "" || startsW (pyStripS raw) "#" then plainNoHeader rest
    else plainLineDomains (pyStripS raw) ∪ plainNoHeader rest

/-- One body line of `extract_domains_from_blackmatrix7_domain_txt`. -/
def bmLineDomains (line : String) : Finset String :=
  if startsW line "." then
    let d := String.mk line.data.tail
    if is_valid_domain d then {d} else ∅
  else if is_valid_domain line then {line}
  else ∅

/-- The line loop of `extract_domains_from_blackmatrix7_domain_txt`; the
boolean is the `header_section` flag. -/
def bmLoop : Bool → List String → Finset String
  | _, [] => ∅
  | hs, raw :: rest =>
    if pyStripS raw = "" || startsW (pyStripS raw) "#" then bmLoop hs rest
    else if hs && containsSubB (pyStripS raw).data "DOMAIN:".data then bmLoop false rest
    else if hs then bmLoop hs rest
    else bmLineDomains (pyStripS raw) ∪ bmLoop hs rest

/-- `extract_domains_from_blackmatrix7_domain_txt` of
`scripts/extract_domains.py` (lines 447-479). -/
def extract_domains_from_blackmatrix7_domain_txt (content : String) : Finset String :=
  bmLoop true (pyLines content)

/-- A character allowed in a URL scheme after the first letter. -/
def schemeChar (c : Char) : Bool := c.isAlphanum || c == '+' || c == '-' || c == '.'

/-- Simplified model of `urllib.parse.urlparse(s).netloc`: drop a
syntactically valid `scheme:` prefix, then, if `//` follows, the netloc is
everything up to the next `/`, `?` or `#`. -/
def pyNetloc (s : String) : String :=
  let l := s.data
  let pre := l.takeWhile (fun c => c != ':')
  let rest := l.dropWhile (fun c => c != ':')
  let body :=
    if !rest.isEmpty && !pre.isEmpty && (pre.headD ' ').isAlpha && pre.all schemeChar then
      rest.tail
    else l
  if "//".data.isPrefixOf body then
    String.mk ((body.drop 2).takeWhile (fun c => c != '/' && c != '?' && c != '#'))
  else ""

/-- One surviving line of the main (decoded) GFWList loop. -/
def gfwLineDomains (line : String) : Finset String :=
  if startsW line "||" && line.data.contains '^' then
    let d := String.mk ((line.data.drop 2).takeWhile (fun c => c != '^'))
    if is_valid_domain d then {d} else ∅
  else if startsW line "|http" then
    let d := pyNetloc (String.mk line.data.tail)
    if is_valid_domain d then {d} else ∅
  else if !line.data.contains '/' && line.data.contains '.' && !startsW line "." then
    if is_valid_domain line then {line} else ∅
  else
    match urlSearch line.data with
    | some d =>
      let ds := String.mk d
      if is_valid_domain ds then {ds} else ∅
    | none => ∅

/-- The main loop of `extract_domains_from_gfwlist` over the decoded
content. -/
def gfwLoop : List String → Finset String
  | [] => ∅
  | raw :: rest =>
    if pyStripS raw = "" || startsW (pyStripS raw) "!" || startsW (pyStripS raw) "[" ||
        startsW (pyStripS raw) "#" then gfwLoop rest
    else gfwLineDomains (pyStripS raw) ∪ gfwLoop rest

/-- The plain-text fallback loop in the `except` branch of
`extract_domains_from_gfwlist`. -/
def gfwFallbackLoop : List String → Finset String
  | [] => ∅
  | raw :: rest =>
    if pyStripS raw = "" || startsW (pyStripS raw) "#" || startsW (pyStripS raw) "!" then
      gfwFallbackLoop rest
    else (if is_valid_domain (pyStripS raw) then {pyStripS raw} else ∅) ∪ gfwFallbackLoop rest

/-- `extract_domains_from_gfwlist` of `scripts/extract_domains.py` (lines
353-405).  `b64` models `base64.b64decode` plus the lossy UTF-8 decode:
`some` is the decoded text, `none` a decode exception, which the source
catches, falling back to a plain-text pass over the raw content. -/
def extract_domains_from_gfwlist (b64 : String → Option String) (content : String) :
    Finset String :=
  match b64 content with
  | some decoded => gfwLoop (pyLines decoded)
  | none => gfwFallbackLoop (pyLines content)

/-- Python `str.isalpha()` (restricted to the ASCII letters the model
uses). -/
def pyIsAlpha (s : String) : Bool := !s.data.isEmpty && s.data.all Char.isAlpha

/-- The line loop of `read_custom_domains`. -/
def rcdLoop : List String → Finset String
  | [] => ∅
  | raw :: rest =>
    if pyStripS raw = "" || startsW (pyStripS raw) "#" then rcdLoop rest
    else if is_valid_domain (pyStripS raw) then insert (pyStripS raw) (rcdLoop rest)
    else if pyIsAlpha (pyStripS raw) ∧ (pyStripS raw).data.length ≤ 5 then
      insert (pyStripS raw) (rcdLoop rest)
    else if startsW (pyStripS raw) "." ∧
        is_valid_domain (String.mk (pyStripS raw).data.tail) then
      insert (String.mk (pyStripS raw).data.tail) (rcdLoop rest)
    else rcdLoop rest

/-- `read_custom_domains` of `scripts/extract_domains.py` (lines 574-592),
applied to the custom file's content (the file read is plumbing). -/
def read_custom_domains (content : String) : Finset String :=
  rcdLoop (pyLines content)

/-- The keys of the modelled Python dict. -/
def dictKeys (m : List (String × List String)) : List String := m.map Prod.fst

/-- Python dict assignment `m[k] = v`: replace the value if the key is
present, otherwise append the pair. -/
def dictInsert (m : List (String × List String)) (k : String) (v : List String) :
    List (String × List String) :=
  if k ∈ dictKeys m then m.map (fun kv => if kv.1 = k then (k, v) else kv)
  else m ++ [(k, v)]

/-- `parts[0].strip()` of a mapping line: the stripped text before the
first colon. -/
def cddDomainsPart (line : String) : List Char :=
  pyStrip (line.data.takeWhile (fun c => c != ':'))

/-- The DNS-server list of a mapping line: the text after the first
colon, split on commas, stripped, empties dropped. -/
def cddDnsServers (line : String) : List String :=
  (((splitOnC ',' ((line.data.dropWhile (fun c => c != ':')).tail)).map pyStrip).filter
    (fun d => !d.isEmpty)).map (fun d => String.mk d)

/-- The domain tokens of a mapping line: the domain part split on `/`,
stripped, empties dropped. -/
def cddDomains (line : String) : List String :=
  (((splitOnC '/' (cddDomainsPart line)).map pyStrip).filter
    (fun d => !d.isEmpty)).map (fun d => String.mk d)

/-- One line of `read_custom_domain_dns`: the state is the pair of
`grouped_rules` and `domain_dns_map`. -/
def cddLine (st : List (List String × List String) × List (String × List String))
    (raw : String) : List (List String × List String) × List (String × List String) :=
  if pyStripS raw = "" || startsW (pyStripS raw) "#" then st
  else if !(pyStripS raw).data.contains ':' then st
  else if (cddDomainsPart (pyStripS raw)).isEmpty || (cddDnsServers (pyStripS raw)).isEmpty then
    st
  else
    (st.1 ++ [(cddDomains (pyStripS raw), cddDnsServers (pyStripS raw))],
     (cddDomains (pyStripS raw)).foldl
       (fun m d => dictInsert m d (cddDnsServers (pyStripS raw))) st.2)

/-- The line loop of `read_custom_domain_dns`. -/
def cddLoop (st : List (List String × List String) × List (String × List String)) :
    List String → List (List String × List String) × List (String × List String)
  | [] => st
  | raw :: rest => cddLoop (cddLine st raw) rest

/-- `read_custom_domain_dns` of `scripts/generate_config.py` (lines
75-100), applied to the mapping file's content; returns
`(grouped_rules, domain_dns_map)`. -/
def read_custom_domain_dns (content : String) :
    List (List String × List String) × List (String × List String) :=
  cddLoop ([], []) (pyLines content)

/-- The Python exception the batch dies with. -/
inductive PyExc where
  | nameError
deriving DecidableEq

/-- `process_sources` of `scripts/extract_domains.py` (lines 549-562).
`fetch` models `download_file` (empty string on failure) and `extract`
models `extract_domains_from_file`.  On an empty fetch the source
evaluates `logger.warning(f"... {url} ...")` where `url` is an undefined
name, so the call raises `NameError` instead of skipping. -/
def process_sources (fetch : String → String) (extract : String → String → Finset String) :
    List String → Except PyExc (Finset String)
  | [] => .ok ∅
  | src :: rest =>
    if fetch src = "" then .error .nameError
    else
      match process_sources fetch extract rest with
      | .ok acc => .ok (extract (fetch src) src ∪ acc)
      | .error e => .error e

/-- The source loop of `process_sources` in `scripts/generate_config.py`
(lines 61-73): an empty fetch contributes nothing and the loop goes on. -/
def gcLoop (fetch : String → String) (extract : String → String → Finset String) :
    List String → Finset String
  | [] => ∅
  | src :: rest =>
    (if fetch src = "" then ∅ else extract (fetch src) src) ∪ gcLoop fetch extract rest

/-- `process_sources` of `scripts/generate_config.py` (lines 61-73);
`custom` is `read_custom_domains(custom_file)` when the optional custom
file exists, `none` otherwise. -/
def process_sources_gc (fetch : String → String)
    (extract : String → String → Finset String) (sources : List String)
    (custom : Option (Finset String)) : Finset String :=
  gcLoop fetch extract sources ∪ (match custom with | some cs => cs | none => ∅)

/-- The `re.sub(r'^https?://', '', raw_line)` step of
`domain_to_quanx.py`. -/
def quanxStripScheme (l : List Char) : List Char :=
  if "https://".data.isPrefixOf l then l.drop 8
  else if "http://".data.isPrefixOf l then l.drop 7
  else l

/-- A character that is not `/`, `?` or `#`; `re.split(r'[/?#]', d)[0]`
keeps the maximal prefix of such characters. -/
def quanxCut (c : Char) : Bool := c != '/' && c != '?' && c != '#'

/-- One surviving line of `extract_domains` in
`scripts/domain_to_quanx.py`: drop the scheme, cut at the first `/`, `?`
or `#`, split on dots, and keep the last two labels when there are at
least two. -/
def quanxLine (line : String) : Finset String :=
  match (splitOnC '.' ((quanxStripScheme line.data).takeWhile quanxCut)).reverse with
  | b :: a :: _ => {String.mk (a ++ '.' :: b)}
  | _ => ∅

/-- The line loop of `extract_domains` in `scripts/domain_to_quanx.py`. -/
def quanxLoop : List String → Finset String
  | [] => ∅
  | rawLine :: rest =>
    if pyStripS rawLine = "" || startsW (pyStripS rawLine) "#" ||
        startsW (pyStripS rawLine) ";" then quanxLoop rest
    else quanxLine (pyStripS rawLine) ∪ quanxLoop rest

/-- `extract_domains` of `scripts/domain_to_quanx.py` (lines 14-40),
applied to the file's content (the file lookup and debug printing are
plumbing). -/
def extract_domains (content : String) : Finset String :=
  quanxLoop (pyLines content)

/-- A label as claim C1 words it: 1-63 characters, first and last
character alphanumeric, interior characters alphanumeric or hyphen. -/
def claimGoodLabel (p : List Char) : Prop :=
  p ≠ [] ∧ p.length ≤ 63 ∧ (p.headD 'a').isAlphanum = true ∧
  (p.getLastD 'a').isAlphanum = true ∧ ∀ c ∈ p, c.isAlphanum = true ∨ c = '-'

/-- A label as `DOMAIN_PATTERN` actually accepts it: non-empty, first
character alphanumeric, remaining characters alphanumeric or hyphen (no
length cap, trailing hyphen allowed). -/
def amGoodLabel (p : List Char) : Prop :=
  p ≠ [] ∧ (p.headD 'a').isAlphanum = true ∧ ∀ c ∈ p.tail, c.isAlphanum = true ∨ c = '-'

/-- One group of a dotted-quad: one to three digits. -/
def quadOctet (p : List Char) : Prop :=
  p ≠ [] ∧ p.length ≤ 3 ∧ ∀ c ∈ p, c.isDigit = true

/-- A dotted-quad in the sense of the `ipv4_pattern` regex: four
dot-separated groups of one to three digits. -/
def dottedQuad (m : List Char) : Prop :=
  (splitOnC '.' m).length = 4 ∧ ∀ p ∈ splitOnC '.' m, quadOctet p

/-- The validity predicate exactly as claim C1 states it: after stripping
one leading dot, the result is non-empty, at most 253 characters, does
not end with a dot, contains no consecutive dots, is not an IPv4
dotted-quad, and consists of at least two labels per `claimGoodLabel`. -/
def claimValidC1 (s : String) : Prop :=
  stripDot s.data ≠ [] ∧ (stripDot s.data).length ≤ 253 ∧
  (stripDot s.data).getLast? ≠ some '.' ∧
  containsSubB (stripDot s.data) ['.', '.'] = false ∧
  ¬ dottedQuad (stripDot s.data) ∧
  2 ≤ (splitOnC '.' (stripDot s.data)).length ∧
  ∀ p ∈ splitOnC '.' (stripDot s.data), claimGoodLabel p

/-- The amended validity predicate: the length bound is checked on the
original string before the strip; the dotted-quad test and the label
grammar additionally ignore one final newline (Python's `$`); labels have
no length cap and may end with a hyphen. -/
def specValidC1 (s : String) : Prop :=
  s.data ≠ [] ∧ s.data.length ≤ 253 ∧
  (stripDot s.data).getLast? ≠ some '.' ∧
  containsSubB (stripDot s.data) ['.', '.'] = false ∧
  ¬ dottedQuad (stripNL (stripDot s.data)) ∧
  2 ≤ (splitOnC '.' (stripNL (stripDot s.data))).length ∧
  ∀ p ∈ splitOnC '.' (stripNL (stripDot s.data)), amGoodLabel p

/-- A valid domain of the maximum accepted length, 253 characters. -/
def longDomain253 : String := String.mk (List.replicate 249 'a' ++ ".com".data)

instance (p : List Char) : Decidable (claimGoodLabel p) := by
  unfold claimGoodLabel; infer_instance

instance (p : List Char) : Decidable (amGoodLabel p) := by
  unfold amGoodLabel; infer_instance

instance (p : List Char) : Decidable (quadOctet p) := by
  unfold quadOctet; infer_instance

instance (m : List Char) : Decidable (dottedQuad m) := by
  unfold dottedQuad; infer_instance

instance (s : String) : Decidable (claimValidC1 s) := by
  unfold claimValidC1; infer_instance

instance (s : String) : Decidable (specValidC1 s) := by
  unfold specValidC1; infer_instance

theorem length_dropWhile_le (P : Char → Bool) (l : List Char) :
    (l.dropWhile P).length ≤ l.length := by
  induction l with
  | nil => simp
  | cons a l ih =>
    by_cases h : P a
    · rw [List.dropWhile_cons_of_pos h]
      simp only [List.length_cons]
      omega
    · rw [List.dropWhile_cons_of_neg h]

theorem dropWhile_head_false (P : Char → Bool) {l r : List Char} {x : Char}
    (h : l.dropWhile P = x :: r) : P x = false := by
  induction l with
  | nil => simp [List.dropWhile] at h
  | cons a l ih =>
    by_cases ha : P a
    · rw [List.dropWhile_cons_of_pos ha] at h
      exact ih h
    · rw [List.dropWhile_cons_of_neg ha] at h
      cases h
      simpa using ha

theorem splitOnC_nil (sep : Char) : splitOnC sep [] = [[]] := rfl

theorem splitOnC_ne_nil (sep : Char) (l : List Char) : splitOnC sep l ≠ [] := by
  cases l with
  | nil => simp [splitOnC]
  | cons c cs =>
    by_cases h : c = sep
    · simp [splitOnC, h]
    · simp only [splitOnC, if_neg h]
      cases splitOnC sep cs <;> simp

theorem splitOnC_sep_cons (sep : Char) (cs : List Char) :
    splitOnC sep (sep :: cs) = [] :: splitOnC sep cs := by
  simp [splitOnC]

theorem splitOnC_cons_ne (sep c : Char) (cs : List Char) (h : c ≠ sep) :
    splitOnC sep (c :: cs) =
      (c :: (splitOnC sep cs).headD []) :: (splitOnC sep cs).tail := by
  simp only [splitOnC, if_neg h]
  rcases hs : splitOnC sep cs with _ | ⟨g, gs⟩
  · exact absurd hs (splitOnC_ne_nil sep cs)
  · simp

theorem splitOnC_append_no_sep (sep : Char) (p r : List Char)
    (hp : ∀ c ∈ p, c ≠ sep) :
    splitOnC sep (p ++ r) =
      (p ++ (splitOnC sep r).headD []) :: (splitOnC sep r).tail := by
  induction p with
  | nil =>
    simp only [List.nil_append]
    rcases hs : splitOnC sep r with _ | ⟨g, gs⟩
    · exact absurd hs (splitOnC_ne_nil sep r)
    · simp
  | cons c p ih =>
    have hc : c ≠ sep := hp c (by simp)
    rw [List.cons_append, splitOnC_cons_ne sep c (p ++ r) hc,
      ih (fun x hx => hp x (by simp [hx]))]
    simp

theorem splitOnC_no_sep (sep : Char) (l : List Char) (hl : ∀ c ∈ l, c ≠ sep) :
    splitOnC sep l = [l] := by
  have h := splitOnC_append_no_sep sep l [] hl
  simpa [splitOnC_nil] using h

theorem mem_splitOnC_ne_sep (sep : Char) {l p : List Char} (hp : p ∈ splitOnC sep l)
    {c : Char} (hc : c ∈ p) : c ≠ sep := by
  induction l generalizing p with
  | nil =>
    rw [splitOnC_nil] at hp
    simp at hp
    subst hp
    simp at hc
  | cons a cs ih =>
    by_cases ha : a = sep
    · subst ha
      rw [splitOnC_sep_cons] at hp
      rcases List.mem_cons.mp hp with rfl | hp'
      · simp at hc
      · exact ih hp' hc
    · rw [splitOnC_cons_ne sep a cs ha] at hp
      rcases hs : splitOnC sep cs with _ | ⟨g, gs⟩
      · exact absurd hs (splitOnC_ne_nil sep cs)
      · rw [hs] at hp
        simp only [List.headD_cons, List.tail_cons] at hp
        rcases List.mem_cons.mp hp with rfl | hp'
        · rcases List.mem_cons.mp hc with rfl | hc'
          · exact ha
          · exact ih (by rw [hs]; exact List.mem_cons_self g gs) hc'
        · exact ih (by rw [hs]; exact List.mem_cons_of_mem g hp') hc

theorem stripNL_nil : stripNL [] = [] := by
  simp [stripNL]

theorem stripNL_cons {c : Char} {cs : List Char} (h : c ≠ '\n' ∨ cs ≠ []) :
    stripNL (c :: cs) = c :: stripNL cs := by
  cases cs with
  | nil =>
    have hc : c ≠ '\n' := by
      rcases h with h | h
      · exact h
      · exact absurd rfl h
    simp [stripNL, hc]
  | cons b cs' =>
    rw [stripNL, stripNL, List.getLast?_cons_cons]
    by_cases hl : (b :: cs').getLast? = some '\n'
    · simp [hl]
    · simp [hl]

theorem stripNL_append {p : List Char} (r : List Char) (hp : ∀ c ∈ p, c ≠ '\n') :
    stripNL (p ++ r) = p ++ stripNL r := by
  induction p with
  | nil => simp
  | cons c p ih =>
    have step : stripNL (c :: (p ++ r)) = c :: stripNL (p ++ r) :=
      stripNL_cons (Or.inl (hp c (by simp)))
    rw [List.cons_append, step, ih (fun x hx => hp x (by simp [hx])), List.cons_append]

theorem stripNL_eq_nil {l : List Char} : stripNL l = [] ↔ l = [] ∨ l = ['\n'] := by
  match l with
  | [] => simp [stripNL_nil]
  | [c] =>
    by_cases hc : c = '\n'
    · subst hc
      simp [stripNL]
    · simp [stripNL, hc]
  | a :: b :: l₂ =>
    have h1 : stripNL (a :: b :: l₂) ≠ [] := by
      rw [stripNL]
      by_cases hl : (a :: b :: l₂).getLast? = some '\n'
      · rw [if_pos hl]
        simp
      · rw [if_neg hl]
        simp
    simp [h1]

theorem atEnd_eq (l : List Char) : atEnd l = (stripNL l).isEmpty := by
  match l with
  | [] => simp [atEnd, stripNL_nil]
  | [c] =>
    by_cases hc : c = '\n'
    · subst hc
      simp [atEnd, stripNL]
    · simp [atEnd, stripNL, hc]
  | a :: b :: l₂ =>
    have h : stripNL (a :: b :: l₂) ≠ [] := by
      intro hh
      rcases stripNL_eq_nil.mp hh with h1 | h1 <;> simp at h1
    have ha : atEnd (a :: b :: l₂) = false := rfl
    rw [ha]
    cases he : stripNL (a :: b :: l₂) with
    | nil => exact absurd he h
    | cons x xs => simp

theorem stripNL_head {l : List Char} (h : stripNL l ≠ []) :
    (stripNL l).head? = l.head? := by
  cases l with
  | nil => rw [stripNL_nil]
  | cons c cs =>
    by_cases hc : c = '\n' ∧ cs = []
    · rcases hc with ⟨rfl, rfl⟩
      exact absurd (stripNL_eq_nil.mpr (Or.inr rfl)) h
    · have h' : c ≠ '\n' ∨ cs ≠ [] := by tauto
      rw [stripNL_cons h']
      simp

theorem labelChar_iff {x : Char} : labelChar x = true ↔ x.isAlphanum = true ∨ x = '-' := by
  unfold labelChar
  simp

theorem not_amGoodLabel_nil : ¬ amGoodLabel [] := by
  unfold amGoodLabel
  simp

theorem amGoodLabel_cons_iff {c : Char} {p : List Char} :
    amGoodLabel (c :: p) ↔ c.isAlphanum = true ∧ ∀ x ∈ p, x.isAlphanum = true ∨ x = '-' := by
  unfold amGoodLabel
  simp

theorem amGoodLabel_label {b : Char} {p : List Char} (hb : b.isAlphanum = true)
    (hp : ∀ x ∈ p, labelChar x = true) : amGoodLabel (b :: p) :=
  amGoodLabel_cons_iff.mpr ⟨hb, fun x hx => labelChar_iff.mp (hp x hx)⟩

theorem matchTailF_single (f : Nat) (a : Char) : matchTailF (f + 1) [a] = false := by
  simp [matchTailF]

theorem matchTailF_cons_ne (f : Nat) (a b : Char) (cs : List Char) (ha : a ≠ '.') :
    matchTailF (f + 1) (a :: b :: cs) = false := by
  simp [matchTailF, ha]

theorem matchTailF_dot (f : Nat) (b : Char) (cs : List Char) :
    matchTailF (f + 1) ('.' :: b :: cs) =
      (b.isAlphanum && (atEnd (dropLabel cs) || matchTailF f (dropLabel cs))) := rfl

theorem matchTailF_stripNL_nil {f : Nat} {l : List Char} (h : stripNL l = []) :
    matchTailF f l = false := by
  rcases stripNL_eq_nil.mp h with rfl | rfl
  · cases f with
    | zero => rfl
    | succ f => rfl
  · cases f with
    | zero => rfl
    | succ f => exact matchTailF_single f '\n'

theorem headD_empty_of_good {b : Char} {p r : List Char}
    (hr : ∀ z r₂, r = z :: r₂ → labelChar z = false)
    (hg : amGoodLabel ((b :: p) ++ (splitOnC '.' (stripNL r)).headD [])) :
    (splitOnC '.' (stripNL r)).headD [] = [] := by
  cases hm : stripNL r with
  | nil =>
    rw [splitOnC_nil]
    rfl
  | cons z w2 =>
    have hzr : r.head? = some z := by
      rw [← stripNL_head (l := r) (by rw [hm]; simp), hm]
      rfl
    obtain ⟨r₂, hr2⟩ : ∃ r₂, r = z :: r₂ := by
      cases r with
      | nil => simp at hzr
      | cons x xs =>
        simp only [List.head?_cons, Option.some.injEq] at hzr
        exact ⟨xs, by rw [hzr]⟩
    have hzlab := hr z r₂ hr2
    rw [hm] at hg
    by_cases hzdot : z = '.'
    · subst hzdot
      rw [splitOnC_sep_cons] at hg ⊢
      simp
    · rw [splitOnC_cons_ne '.' z w2 hzdot] at hg ⊢
      exfalso
      simp only [List.headD_cons, List.cons_append] at hg
      obtain ⟨-, hall⟩ := amGoodLabel_cons_iff.mp hg
      have hz2 := hall z (by simp)
      rw [← labelChar_iff, hzlab] at hz2
      simp at hz2

theorem tail_ne_nil_of_headD_nil {m : List Char} (hm : m ≠ [])
    (h : (splitOnC '.' m).headD [] = []) : (splitOnC '.' m).tail ≠ [] := by
  cases m with
  | nil => exact absurd rfl hm
  | cons y w =>
    by_cases hy : y = '.'
    · subst hy
      rw [splitOnC_sep_cons]
      simp [splitOnC_ne_nil]
    · rw [splitOnC_cons_ne '.' y w hy] at h
      simp at h

theorem matchTail_master :
    ∀ (f : Nat) (l : List Char), l.length < f →
      ((atEnd l || matchTailF f l) = true ↔
        ((splitOnC '.' (stripNL l)).headD [] = [] ∧
          ∀ p ∈ (splitOnC '.' (stripNL l)).tail, amGoodLabel p)) := by
  intro f
  induction f with
  | zero => exact fun l hl => absurd hl (Nat.not_lt_zero _)
  | succ f ih =>
    intro l hl
    rcases l with _ | ⟨a, l₂⟩
    · simp [atEnd, stripNL_nil, splitOnC_nil]
    by_cases hnl : stripNL (a :: l₂) = []
    · rcases stripNL_eq_nil.mp hnl with h1 | h1
      · exact absurd h1 (by simp)
      · injection h1 with h1a h1b
        subst h1a
        subst h1b
        simp [atEnd, hnl, splitOnC_nil]
    · have hor : a ≠ '\n' ∨ l₂ ≠ [] := by
        by_contra hcon
        push_neg at hcon
        obtain ⟨rfl, rfl⟩ := hcon
        exact hnl (stripNL_eq_nil.mpr (Or.inr rfl))
      have hstr : stripNL (a :: l₂) = a :: stripNL l₂ := stripNL_cons hor
      have hae : atEnd (a :: l₂) = false := by
        rw [atEnd_eq]
        cases he : stripNL (a :: l₂) with
        | nil => exact absurd he hnl
        | cons x xs => rfl
      by_cases hadot : a = '.'
      · subst hadot
        rw [hae, Bool.false_or, hstr, splitOnC_sep_cons]
        simp only [List.headD_cons, List.tail_cons, true_and]
        rcases l₂ with _ | ⟨b, l₃⟩
        · rw [matchTailF_single]
          simp [stripNL_nil, splitOnC_nil, not_amGoodLabel_nil]
        · cases hb : b.isAlphanum with
          | false =>
            rw [matchTailF_dot]
            simp only [hb, Bool.false_and]
            by_cases hnl2 : stripNL (b :: l₃) = []
            · rw [hnl2, splitOnC_nil]
              simp [not_amGoodLabel_nil]
            · obtain ⟨w, hw⟩ : ∃ w, stripNL (b :: l₃) = b :: w := by
                have hh := stripNL_head hnl2
                cases hsw : stripNL (b :: l₃) with
                | nil => exact absurd hsw hnl2
                | cons x xs =>
                  rw [hsw] at hh
                  simp only [List.head?_cons, Option.some.injEq] at hh
                  exact ⟨xs, by rw [hh]⟩
              rw [hw]
              by_cases hbdot : b = '.'
              · subst hbdot
                rw [splitOnC_sep_cons]
                simp [not_amGoodLabel_nil]
              · rw [splitOnC_cons_ne '.' b w hbdot]
                simp [amGoodLabel_cons_iff, hb]
          | true =>
            rw [matchTailF_dot]
            simp only [hb, Bool.true_and, dropLabel]
            have hplabel : ∀ x ∈ l₃.takeWhile labelChar, labelChar x = true :=
              fun x hx => List.mem_takeWhile_imp hx
            have hbp : ∀ x ∈ b :: l₃.takeWhile labelChar, x ≠ '.' := by
              intro x hx
              rcases List.mem_cons.mp hx with rfl | hx'
              · intro h'
                rw [h'] at hb
                exact absurd hb (by decide)
              · intro h'
                have hx2 := hplabel x hx'
                rw [h'] at hx2
                exact absurd hx2 (by decide)
            have hbpnl : ∀ x ∈ b :: l₃.takeWhile labelChar, x ≠ '\n' := by
              intro x hx
              rcases List.mem_cons.mp hx with rfl | hx'
              · intro h'
                rw [h'] at hb
                exact absurd hb (by decide)
              · intro h'
                have hx2 := hplabel x hx'
                rw [h'] at hx2
                exact absurd hx2 (by decide)
            have h1 : stripNL (b :: l₃) =
                (b :: l₃.takeWhile labelChar) ++ stripNL (l₃.dropWhile labelChar) := by
              conv_lhs => rw [show b :: l₃ =
                (b :: l₃.takeWhile labelChar) ++ l₃.dropWhile labelChar from by
                  simp [List.takeWhile_append_dropWhile]]
              exact stripNL_append _ hbpnl
            rw [h1, splitOnC_append_no_sep '.' _ _ hbp]
            have hrlen : (l₃.dropWhile labelChar).length < f := by
              have hle := length_dropWhile_le labelChar l₃
              simp only [List.length_cons] at hl
              omega
            rw [ih (l₃.dropWhile labelChar) hrlen]
            simp only [List.headD_cons, List.tail_cons, List.forall_mem_cons]
            constructor
            · rintro ⟨hh, hT⟩
              refine ⟨?_, hT⟩
              rw [hh, List.append_nil]
              exact amGoodLabel_label hb hplabel
            · rintro ⟨hg, hT⟩
              refine ⟨?_, hT⟩
              exact headD_empty_of_good
                (fun z r₂ hzr => dropWhile_head_false labelChar hzr) hg
      · rw [hae, Bool.false_or]
        have hmf : matchTailF (f + 1) (a :: l₂) = false := by
          rcases l₂ with _ | ⟨b, l₃⟩
          · exact matchTailF_single f a
          · exact matchTailF_cons_ne f a b l₃ hadot
        rw [hmf, hstr, splitOnC_cons_ne '.' a (stripNL l₂) hadot]
        simp

theorem matchDP_iff (l : List Char) :
    matchDP l = true ↔
      (2 ≤ (splitOnC '.' (stripNL l)).length ∧
        ∀ p ∈ splitOnC '.' (stripNL l), amGoodLabel p) := by
  rcases l with _ | ⟨c, cs⟩
  · simp [matchDP, stripNL_nil, splitOnC_nil]
  cases hc : c.isAlphanum with
  | false =>
    have hdp : matchDP (c :: cs) = false := by
      simp [matchDP, hc]
    rw [hdp]
    by_cases hnl : stripNL (c :: cs) = []
    · rw [hnl, splitOnC_nil]
      simp
    · have hor : c ≠ '\n' ∨ cs ≠ [] := by
        by_contra hcon
        push_neg at hcon
        obtain ⟨rfl, rfl⟩ := hcon
        exact hnl (stripNL_eq_nil.mpr (Or.inr rfl))
      rw [stripNL_cons hor]
      by_cases hcdot : c = '.'
      · subst hcdot
        rw [splitOnC_sep_cons]
        simp [not_amGoodLabel_nil]
      · rw [splitOnC_cons_ne '.' c _ hcdot]
        simp [amGoodLabel_cons_iff, hc]
  | true =>
    have hcd : c ≠ '.' := by
      intro h'
      rw [h'] at hc
      exact absurd hc (by decide)
    have hcnl : c ≠ '\n' := by
      intro h'
      rw [h'] at hc
      exact absurd hc (by decide)
    have hdp : matchDP (c :: cs) = matchTailF (cs.length + 1) (cs.dropWhile labelChar) := by
      simp [matchDP, hc, dropLabel]
    rw [hdp]
    have hplabel : ∀ x ∈ cs.takeWhile labelChar, labelChar x = true :=
      fun x hx => List.mem_takeWhile_imp hx
    have hcp : ∀ x ∈ c :: cs.takeWhile labelChar, x ≠ '.' := by
      intro x hx
      rcases List.mem_cons.mp hx with rfl | hx'
      · exact hcd
      · intro h'
        have hx2 := hplabel x hx'
        rw [h'] at hx2
        exact absurd hx2 (by decide)
    have hcpnl : ∀ x ∈ c :: cs.takeWhile labelChar, x ≠ '\n' := by
      intro x hx
      rcases List.mem_cons.mp hx with rfl | hx'
      · exact hcnl
      · intro h'
        have hx2 := hplabel x hx'
        rw [h'] at hx2
        exact absurd hx2 (by decide)
    have h1 : stripNL (c :: cs) =
        (c :: cs.takeWhile labelChar) ++ stripNL (cs.dropWhile labelChar) := by
      conv_lhs => rw [show c :: cs =
        (c :: cs.takeWhile labelChar) ++ cs.dropWhile labelChar from by
          simp [List.takeWhile_append_dropWhile]]
      exact stripNL_append _ hcpnl
    rw [h1, splitOnC_append_no_sep '.' _ _ hcp]
    by_cases hnl2 : stripNL (cs.dropWhile labelChar) = []
    · rw [matchTailF_stripNL_nil hnl2, hnl2, splitOnC_nil]
      simp
    · have hae : atEnd (cs.dropWhile labelChar) = false := by
        rw [atEnd_eq]
        cases he : stripNL (cs.dropWhile labelChar) with
        | nil => exact absurd he hnl2
        | cons x xs => rfl
      have hfuel : (cs.dropWhile labelChar).length < cs.length + 1 := by
        have hle := length_dropWhile_le labelChar cs
        omega
      have hmst := matchTail_master (cs.length + 1) (cs.dropWhile labelChar) hfuel
      rw [hae, Bool.false_or] at hmst
      rw [hmst]
      simp only [List.length_cons, List.forall_mem_cons]
      constructor
      · rintro ⟨hh, hT⟩
        have htne := tail_ne_nil_of_headD_nil hnl2 hh
        have hlp : 0 < (splitOnC '.' (stripNL (cs.dropWhile labelChar))).tail.length :=
          List.length_pos.mpr htne
        refine ⟨by omega, ?_, hT⟩
        rw [hh, List.append_nil]
        exact amGoodLabel_label hc hplabel
      · rintro ⟨hlen, hg, hT⟩
        refine ⟨?_, hT⟩
        exact headD_empty_of_good
          (fun z r₂ hzr => dropWhile_head_false labelChar hzr) hg

theorem quad_bad_of_head_not_digit {l : List Char} (n : Nat)
    (hd : (l.takeWhile Char.isDigit).isEmpty = true) :
    ¬((splitOnC '.' (stripNL l)).length = n + 1 ∧
      ∀ p ∈ splitOnC '.' (stripNL l), quadOctet p) := by
  rintro ⟨hlen, hall⟩
  cases l with
  | nil =>
    have h0 := hall [] (by rw [stripNL_nil, splitOnC_nil]; simp)
    exact h0.1 rfl
  | cons y w =>
    have hy : Char.isDigit y = false := by
      by_cases h : Char.isDigit y
      · exfalso
        rw [List.takeWhile_cons_of_pos h] at hd
        simp at hd
      · exact Bool.eq_false_iff.mpr h
    by_cases hnl : stripNL (y :: w) = []
    · have h0 := hall [] (by rw [hnl, splitOnC_nil]; simp)
      exact h0.1 rfl
    · have hor : y ≠ '\n' ∨ w ≠ [] := by
        by_contra hcon
        push_neg at hcon
        obtain ⟨rfl, rfl⟩ := hcon
        exact hnl (stripNL_eq_nil.mpr (Or.inr rfl))
      rw [stripNL_cons hor] at hall
      by_cases hydot : y = '.'
      · subst hydot
        rw [splitOnC_sep_cons] at hall
        have h0 := hall [] (by simp)
        exact h0.1 rfl
      · rw [splitOnC_cons_ne '.' y _ hydot] at hall
        have h0 := hall _ (List.mem_cons_self _ _)
        obtain ⟨-, -, hdig⟩ := h0
        have h1 := hdig y (by simp)
        rw [hy] at h1
        simp at h1

theorem quad_bad_of_long_run {l : List Char} (n : Nat)
    (hd : 3 < (l.takeWhile Char.isDigit).length) :
    ¬((splitOnC '.' (stripNL l)).length = n + 1 ∧
      ∀ p ∈ splitOnC '.' (stripNL l), quadOctet p) := by
  rintro ⟨hlen, hall⟩
  have hddig : ∀ x ∈ l.takeWhile Char.isDigit, Char.isDigit x = true :=
    fun x hx => List.mem_takeWhile_imp hx
  have hdnl : ∀ x ∈ l.takeWhile Char.isDigit, x ≠ '\n' := by
    intro x hx h'
    have hx2 := hddig x hx
    rw [h'] at hx2
    exact absurd hx2 (by decide)
  have hdd : ∀ x ∈ l.takeWhile Char.isDigit, x ≠ '.' := by
    intro x hx h'
    have hx2 := hddig x hx
    rw [h'] at hx2
    exact absurd hx2 (by decide)
  have h1 : stripNL l =
      l.takeWhile Char.isDigit ++ stripNL (l.dropWhile Char.isDigit) := by
    conv_lhs => rw [← List.takeWhile_append_dropWhile (p := Char.isDigit) (l := l)]
    exact stripNL_append _ hdnl
  rw [h1, splitOnC_append_no_sep '.' _ _ hdd] at hall
  have hmem := hall _ (List.mem_cons_self _ _)
  obtain ⟨-, hle, -⟩ := hmem
  rw [List.length_append] at hle
  omega

theorem quadOctet_run {l : List Char} (hne : ¬(l.takeWhile Char.isDigit).isEmpty = true)
    (hlen : (l.takeWhile Char.isDigit).length ≤ 3) :
    quadOctet (l.takeWhile Char.isDigit) := by
  refine ⟨?_, hlen, fun x hx => List.mem_takeWhile_imp hx⟩
  intro h0
  rw [h0] at hne
  simp at hne

theorem ipv4From_master :
    ∀ (n : Nat) (l : List Char),
      ipv4From n l = true ↔
        ((splitOnC '.' (stripNL l)).length = n + 1 ∧
          ∀ p ∈ splitOnC '.' (stripNL l), quadOctet p) := by
  intro n
  induction n with
  | zero =>
    intro l
    by_cases hde : (l.takeWhile Char.isDigit).isEmpty = true
    · have hlhs : ipv4From 0 l = false := by
        simp [ipv4From, hde]
      rw [hlhs]
      exact iff_of_false (by simp) (quad_bad_of_head_not_digit 0 hde)
    · have hde' : (l.takeWhile Char.isDigit).isEmpty = false := Bool.eq_false_iff.mpr hde
      by_cases hdl : 3 < (l.takeWhile Char.isDigit).length
      · have h3 : ¬(l.takeWhile Char.isDigit).length ≤ 3 := by omega
        have hlhs : ipv4From 0 l = false := by
          simp [ipv4From, h3]
        rw [hlhs]
        exact iff_of_false (by simp) (quad_bad_of_long_run 0 hdl)
      · have h3 : (l.takeWhile Char.isDigit).length ≤ 3 := by omega
        have hddig : ∀ x ∈ l.takeWhile Char.isDigit, Char.isDigit x = true :=
          fun x hx => List.mem_takeWhile_imp hx
        have hdnl : ∀ x ∈ l.takeWhile Char.isDigit, x ≠ '\n' := by
          intro x hx h'
          have hx2 := hddig x hx
          rw [h'] at hx2
          exact absurd hx2 (by decide)
        have hdd : ∀ x ∈ l.takeWhile Char.isDigit, x ≠ '.' := by
          intro x hx h'
          have hx2 := hddig x hx
          rw [h'] at hx2
          exact absurd hx2 (by decide)
        have h1 : stripNL l =
            l.takeWhile Char.isDigit ++ stripNL (l.dropWhile Char.isDigit) := by
          conv_lhs => rw [← List.takeWhile_append_dropWhile (p := Char.isDigit) (l := l)]
          exact stripNL_append _ hdnl
        have hlhs : ipv4From 0 l = atEnd (l.dropWhile Char.isDigit) := by
          simp [ipv4From, hde', h3]
        rw [hlhs, h1, splitOnC_append_no_sep '.' _ _ hdd, atEnd_eq]
        by_cases hnl2 : stripNL (l.dropWhile Char.isDigit) = []
        · rw [hnl2, splitOnC_nil]
          simp only [List.headD_cons, List.tail_cons, List.isEmpty_nil, List.append_nil]
          refine iff_of_true trivial ⟨by simp, ?_⟩
          intro p hp
          rw [List.mem_singleton.mp hp]
          exact quadOctet_run hde h3
        · have hemp : (stripNL (l.dropWhile Char.isDigit)).isEmpty = false := by
            cases he : stripNL (l.dropWhile Char.isDigit) with
            | nil => exact absurd he hnl2
            | cons x xs => rfl
          rw [hemp]
          refine iff_of_false (by simp) ?_
          rintro ⟨hlen, hall⟩
          cases hm : stripNL (l.dropWhile Char.isDigit) with
          | nil => exact hnl2 hm
          | cons z w2 =>
            have hzr : (l.dropWhile Char.isDigit).head? = some z := by
              rw [← stripNL_head (l := l.dropWhile Char.isDigit) (by rw [hm]; simp), hm]
              rfl
            obtain ⟨r₂, hr2⟩ : ∃ r₂, l.dropWhile Char.isDigit = z :: r₂ := by
              cases hx : l.dropWhile Char.isDigit with
              | nil =>
                rw [hx] at hzr
                simp at hzr
              | cons x xs =>
                rw [hx] at hzr
                simp only [List.head?_cons, Option.some.injEq] at hzr
                exact ⟨xs, by rw [hzr]⟩
            have hzdig : Char.isDigit z = false := dropWhile_head_false Char.isDigit hr2
            rw [hm] at hlen hall
            by_cases hzdot : z = '.'
            · subst hzdot
              rw [splitOnC_sep_cons] at hlen
              simp only [List.tail_cons, List.length_cons] at hlen
              have hpos : 0 < (splitOnC '.' w2).length :=
                List.length_pos.mpr (splitOnC_ne_nil '.' w2)
              omega
            · rw [splitOnC_cons_ne '.' z w2 hzdot] at hall
              have hmem := hall _ (List.mem_cons_self _ _)
              obtain ⟨-, -, hdig⟩ := hmem
              have hzin := hdig z (by simp)
              rw [hzdig] at hzin
              simp at hzin
  | succ k ih =>
    intro l
    by_cases hde : (l.takeWhile Char.isDigit).isEmpty = true
    · have hlhs : ipv4From (k + 1) l = false := by
        simp [ipv4From, hde]
      rw [hlhs]
      exact iff_of_false (by simp) (quad_bad_of_head_not_digit (k + 1) hde)
    · have hde' : (l.takeWhile Char.isDigit).isEmpty = false := Bool.eq_false_iff.mpr hde
      by_cases hdl : 3 < (l.takeWhile Char.isDigit).length
      · have h3 : ¬(l.takeWhile Char.isDigit).length ≤ 3 := by omega
        have hlhs : ipv4From (k + 1) l = false := by
          simp [ipv4From, h3]
        rw [hlhs]
        exact iff_of_false (by simp) (quad_bad_of_long_run (k + 1) hdl)
      · have h3 : (l.takeWhile Char.isDigit).length ≤ 3 := by omega
        have hddig : ∀ x ∈ l.takeWhile Char.isDigit, Char.isDigit x = true :=
          fun x hx => List.mem_takeWhile_imp hx
        have hdnl : ∀ x ∈ l.takeWhile Char.isDigit, x ≠ '\n' := by
          intro x hx h'
          have hx2 := hddig x hx
          rw [h'] at hx2
          exact absurd hx2 (by decide)
        have hdd : ∀ x ∈ l.takeWhile Char.isDigit, x ≠ '.' := by
          intro x hx h'
          have hx2 := hddig x hx
          rw [h'] at hx2
          exact absurd hx2 (by decide)
        have h1 : stripNL l =
            l.takeWhile Char.isDigit ++ stripNL (l.dropWhile Char.isDigit) := by
          conv_lhs => rw [← List.takeWhile_append_dropWhile (p := Char.isDigit) (l := l)]
          exact stripNL_append _ hdnl
        have hlhs : ipv4From (k + 1) l = dotThen (ipv4From k) (l.dropWhile Char.isDigit) := by
          simp [ipv4From, hde', h3]
        rw [hlhs, h1, splitOnC_append_no_sep '.' _ _ hdd]
        cases hr : l.dropWhile Char.isDigit with
        | nil =>
          rw [stripNL_nil, splitOnC_nil]
          simp only [List.headD_cons, List.tail_cons, List.append_nil]
          refine iff_of_false (by simp [dotThen]) ?_
          rintro ⟨hlen, -⟩
          simp only [List.length_singleton] at hlen
          omega
        | cons z r₂ =>
          by_cases hzdot : z = '.'
          · subst hzdot
            have hstr : stripNL ('.' :: r₂) = '.' :: stripNL r₂ :=
              stripNL_cons (Or.inl (by decide))
            rw [hstr, splitOnC_sep_cons]
            simp only [List.headD_cons, List.tail_cons, List.append_nil]
            have hdt : dotThen (ipv4From k) ('.' :: r₂) = ipv4From k r₂ := rfl
            rw [hdt, ih r₂]
            simp only [List.length_cons, List.forall_mem_cons]
            constructor
            · rintro ⟨hl2, hT⟩
              exact ⟨by omega, quadOctet_run hde h3, hT⟩
            · rintro ⟨hl2, -, hT⟩
              exact ⟨by omega, hT⟩
          · have hdt : dotThen (ipv4From k) (z :: r₂) = false := by
              simp [dotThen, hzdot]
            rw [hdt]
            have hzdig : Char.isDigit z = false := dropWhile_head_false Char.isDigit hr
            by_cases hnl2 : stripNL (z :: r₂) = []
            · rw [hnl2, splitOnC_nil]
              simp only [List.headD_cons, List.tail_cons, List.append_nil]
              refine iff_of_false (by simp) ?_
              rintro ⟨hlen, -⟩
              simp only [List.length_singleton] at hlen
              omega
            · have hor : z ≠ '\n' ∨ r₂ ≠ [] := by
                by_contra hcon
                push_neg at hcon
                obtain ⟨rfl, rfl⟩ := hcon
                exact hnl2 (stripNL_eq_nil.mpr (Or.inr rfl))
              rw [stripNL_cons hor, splitOnC_cons_ne '.' z _ hzdot]
              refine iff_of_false (by simp) ?_
              rintro ⟨-, hall⟩
              have hmem := hall _ (List.mem_cons_self _ _)
              obtain ⟨-, -, hdig⟩ := hmem
              have hzin := hdig z (by simp)
              rw [hzdig] at hzin
              simp at hzin

theorem ipv4Match_iff (d : List Char) :
    ipv4Match d = true ↔ dottedQuad (stripNL d) := by
  unfold ipv4Match dottedQuad
  exact ipv4From_master 3 d

theorem is_valid_domain_iff_spec (s : String) :
    is_valid_domain s = true ↔ specValidC1 s := by
  unfold is_valid_domain specValidC1
  by_cases h1 : s.data.isEmpty = true
  · have hd : s.data = [] := by simpa using h1
    rw [if_pos (by simp [h1])]
    simp [hd]
  · have h1' : s.data.isEmpty = false := Bool.eq_false_iff.mpr h1
    have hne : s.data ≠ [] := by
      intro hh
      rw [hh] at h1'
      simp at h1'
    by_cases h2 : 253 < s.data.length
    · rw [if_pos (by rw [Bool.or_eq_true]; right; rw [decide_eq_true_eq]; exact h2)]
      apply iff_of_false (by simp)
      rintro ⟨-, hl, -⟩
      omega
    · rw [if_neg (by
        intro hx
        rw [Bool.or_eq_true, decide_eq_true_eq] at hx
        rcases hx with hx1 | hx2
        · exact h1 hx1
        · exact h2 hx2)]
      by_cases h3 : (stripDot s.data).getLast? = some '.'
      · rw [if_pos h3]
        apply iff_of_false (by simp)
        rintro ⟨-, -, hl3, -⟩
        exact hl3 h3
      · rw [if_neg h3]
        by_cases h4 : containsSubB (stripDot s.data) ['.', '.'] = true
        · rw [if_pos h4]
          apply iff_of_false (by simp)
          rintro ⟨-, -, -, hl4, -⟩
          rw [hl4] at h4
          simp at h4
        · rw [if_neg h4]
          by_cases h5 : ipv4Match (stripDot s.data) = true
          · rw [if_pos h5]
            apply iff_of_false (by simp)
            rintro ⟨-, -, -, -, hl5, -⟩
            exact hl5 ((ipv4Match_iff _).mp h5)
          · rw [if_neg h5, matchDP_iff]
            constructor
            · rintro ⟨hlen2, hall⟩
              refine ⟨hne, by omega, h3, Bool.eq_false_iff.mpr h4, ?_, hlen2, hall⟩
              intro hq
              exact h5 ((ipv4Match_iff _).mpr hq)
            · rintro ⟨-, -, -, -, -, hlen2, hall⟩
              exact ⟨hlen2, hall⟩

/-- C1 fails on the code: `is_valid_domain` accepts `"a-.com"`, whose
first label ends with a hyphen, while the claimed grammar (labels of 1-63
characters whose first and last characters are alphanumeric) rejects it;
so the claimed equivalence is false. -/
theorem C1_counterexample : is_valid_domain "a-.com" = true ∧ ¬ claimValidC1 "a-.com" := by
  exact ⟨by decide, by decide⟩

/-- C2 fails on the code: `".example.com"` is accepted by
`is_valid_domain`, but prepending a further dot is rejected (only one
leading dot is stripped), and prepending a dot to an accepted domain of
the maximum length 253 is rejected as well, because the 253-character
bound is checked before the strip. -/
theorem C2_counterexample :
    (is_valid_domain ".example.com" = true ∧
      is_valid_domain ("." ++ ".example.com") = false) ∧
    (is_valid_domain longDomain253 = true ∧
      is_valid_domain ("." ++ longDomain253) = false) := by
  refine ⟨⟨by decide, by decide⟩, ?_, ?_⟩
  · set_option maxRecDepth 4000 in decide
  · set_option maxRecDepth 4000 in decide

/-- C1 amended: for every string `s`, `is_valid_domain s` is true iff `s`
is non-empty and at most 253 characters (the length is checked before the
strip), and, after stripping one leading dot, the result does not end
with a dot and has no consecutive dots, and, after ignoring one final
newline (Python's `$` matches just before it), it is not a dotted-quad of
four 1-3-digit groups and consists of two or more dot-separated labels,
each non-empty, starting with an alphanumeric character, the remaining
characters alphanumeric or hyphen (no 63-character cap; a label may end
with a hyphen). -/
theorem C1_amended (s : String) : is_valid_domain s = true ↔ specValidC1 s :=
  is_valid_domain_iff_spec s

/-- C2 amended: prepending one dot preserves acceptance for every
accepted domain that does not itself start with a dot and has at most 252
characters; the two situations of the counterexample (a domain that
starts with a dot, and a maximum-length 253-character domain) are exactly
the excluded ones. -/
theorem C2_amended (d : String) (hv : is_valid_domain d = true)
    (hnd : startsW d "." = false) (hlen : d.data.length ≤ 252) :
    is_valid_domain ("." ++ d) = true := by
  have hspec := (is_valid_domain_iff_spec d).mp hv
  unfold specValidC1 at hspec
  obtain ⟨hne, hl, hlast, hdots, hq, hlen2, hall⟩ := hspec
  have hheadne : ∀ cs, d.data = '.' :: cs → False := by
    intro cs hcs
    unfold startsW at hnd
    rw [hcs] at hnd
    simp [List.isPrefixOf] at hnd
  have hsd : stripDot d.data = d.data := by
    cases hd : d.data with
    | nil => rfl
    | cons c cs =>
      by_cases hc : c = '.'
      · subst hc
        exact (hheadne cs hd).elim
      · simp [stripDot, hc]
  rw [hsd] at hlast hdots hq hlen2 hall
  apply (is_valid_domain_iff_spec _).mpr
  unfold specValidC1
  have happ : ("." ++ d).data = '.' :: d.data := rfl
  rw [happ]
  have hstrip2 : stripDot ('.' :: d.data) = d.data := rfl
  rw [hstrip2]
  refine ⟨by simp, ?_, hlast, hdots, hq, hlen2, hall⟩
  simp only [List.length_cons]
  omega

/-- C2 witness: the amended statement applied to `"example.com"`. -/
theorem C2_witness : is_valid_domain ("." ++ "example.com") = true :=
  C2_amended "example.com" (by decide) (by decide) (by decide)

/-- C3 fails on the code: the plain-text extractor keeps the full host
name `"foo.bar.com"`, no second-level reduction happens, so the claimed
set with `"bar.com"` is not the result. -/
theorem C3_counterexample :
    extract_domains_from_plain_text "example.com\nfoo.bar.com\n# comment\n.baz.com\n" ≠
      {"example.com", "bar.com", "baz.com"} := by
  decide

/-- C3 amended: on the example content the extractor returns the full
host names `{"example.com", "foo.bar.com", "baz.com"}`. -/
theorem C3_amended :
    extract_domains_from_plain_text "example.com\nfoo.bar.com\n# comment\n.baz.com\n" =
      {"example.com", "foo.bar.com", "baz.com"} := by
  decide

/-- C4 fails on the code: `read_custom_domain_dns` performs no domain
validation at all, so the token `"bad..token"`, which `is_valid_domain`
rejects and which is no bare alphabetic country-code token either, does
appear as a key of the returned map. -/
theorem C4_counterexample :
    "bad..token" ∈ dictKeys (read_custom_domain_dns "bad..token: 1.1.1.1").2 ∧
    is_valid_domain "bad..token" = false ∧
    ¬ (pyIsAlpha "bad..token" = true ∧ "bad..token".data.length ≤ 5) := by
  exact ⟨by decide, by decide, by decide⟩

/-- C5 fails on the code: for the leading-dot line `".example.com"` the
first branch of `read_custom_domains` fires (`is_valid_domain` itself
strips the leading dot), so the string is added verbatim, dot included. -/
theorem C5_counterexample :
    ".example.com" ∈ read_custom_domains ".example.com" ∧
    startsW ".example.com" "." = true ∧
    ¬ (pyIsAlpha ".example.com" = true ∧ ".example.com".data.length ≤ 5) := by
  exact ⟨by decide, by decide, by decide⟩

/-- C6 is right about the intent but the code slips: in
`extract_domains.process_sources` the skip branch for an empty fetch
evaluates an f-string naming the undefined variable `url`, so the first
failed source raises `NameError` and aborts the batch, while the
`generate_config.process_sources` loop does skip the failed source and
returns the union over the non-empty ones. -/
theorem C6_name_error :
    process_sources
        (fun u => if u = "https://bad.example/a.txt" then "" else "x.com\n")
        (fun c _ => extract_domains_from_plain_text c)
        ["https://bad.example/a.txt", "https://good.example/b.list"] =
      Except.error PyExc.nameError ∧
    process_sources_gc
        (fun u => if u = "https://bad.example/a.txt" then "" else "x.com\n")
        (fun c _ => extract_domains_from_plain_text c)
        ["https://bad.example/a.txt", "https://good.example/b.list"] none =
      {"x.com"} := by
  exact ⟨rfl, by decide⟩

theorem quanxLine_mem {line d : String} (hd : d ∈ quanxLine line) :
    ∃ a b rest,
      (splitOnC '.' ((quanxStripScheme line.data).takeWhile quanxCut)).reverse =
        b :: a :: rest ∧
      d = String.mk (a ++ '.' :: b) := by
  unfold quanxLine at hd
  rcases hrev : (splitOnC '.' ((quanxStripScheme line.data).takeWhile quanxCut)).reverse with
    _ | ⟨b, rest⟩
  · rw [hrev] at hd
    simp at hd
  · rcases rest with _ | ⟨a, rest2⟩
    · rw [hrev] at hd
      simp at hd
    · rw [hrev] at hd
      simp only [Finset.mem_singleton] at hd
      exact ⟨a, b, rest2, rfl, hd⟩

theorem quanxLine_two_labels {line d : String} (hd : d ∈ quanxLine line) :
    (splitOnC '.' d.data).length = 2 := by
  obtain ⟨a, b, rest, hrev, hdd⟩ := quanxLine_mem hd
  have hamem : a ∈ splitOnC '.' ((quanxStripScheme line.data).takeWhile quanxCut) := by
    apply List.mem_reverse.mp
    rw [hrev]
    simp
  have hbmem : b ∈ splitOnC '.' ((quanxStripScheme line.data).takeWhile quanxCut) := by
    apply List.mem_reverse.mp
    rw [hrev]
    simp
  have ha : ∀ c ∈ a, c ≠ '.' := fun c hc => mem_splitOnC_ne_sep '.' hamem hc
  have hb : ∀ c ∈ b, c ≠ '.' := fun c hc => mem_splitOnC_ne_sep '.' hbmem hc
  subst hdd
  have hdata : (String.mk (a ++ '.' :: b)).data = a ++ '.' :: b := rfl
  rw [hdata, splitOnC_append_no_sep '.' a ('.' :: b) ha, splitOnC_sep_cons,
    splitOnC_no_sep '.' b hb]
  simp

theorem quanxLoop_two_labels (ls : List String) (d : String) (hd : d ∈ quanxLoop ls) :
    (splitOnC '.' d.data).length = 2 := by
  induction ls with
  | nil => simp [quanxLoop] at hd
  | cons raw rest ih =>
    rw [quanxLoop] at hd
    split at hd
    · exact ih hd
    · rcases Finset.mem_union.mp hd with h | h
      · exact quanxLine_two_labels h
      · exact ih h

/-- C10: every element of the set returned by `extract_domains` of
`scripts/domain_to_quanx.py` consists of exactly two dot-separated
labels: each surviving line is reduced, after removing an optional
http(s) scheme and everything from the first `/`, `?` or `#`, to its
last two dot-separated labels; a line with fewer than two labels
contributes nothing. -/
theorem C10_two_labels (content : String) (d : String)
    (hd : d ∈ extract_domains content) : (splitOnC '.' d.data).length = 2 :=
  quanxLoop_two_labels (pyLines content) d hd

/-- C10 witness: `"www.example.com"` produces the two-label
`"example.com"`. -/
theorem C10_witness : (splitOnC '.' "example.com".data).length = 2 :=
  C10_two_labels "www.example.com" "example.com" (by decide)

theorem isPrefixOf_append {p t b : List Char} (h : p.isPrefixOf t = true) :
    p.isPrefixOf (t ++ b) = true := by
  induction p generalizing t with
  | nil => simp [List.isPrefixOf]
  | cons x xs ih =>
    cases t with
    | nil => simp [List.isPrefixOf] at h
    | cons y ys =>
      simp only [List.cons_append, List.isPrefixOf, Bool.and_eq_true, beq_iff_eq] at h ⊢
      exact ⟨h.1, ih h.2⟩

theorem containsSubB_iff {s p : List Char} :
    containsSubB s p = true ↔ ∃ t ∈ s.tails, p.isPrefixOf t = true := by
  unfold containsSubB
  simp [List.any_eq_true]

theorem containsSub_mono {s1 s2 p : List Char} (pre suf : List Char)
    (hs : s2 = pre ++ s1 ++ suf) (h : containsSubB s1 p = true) :
    containsSubB s2 p = true := by
  rw [containsSubB_iff] at h ⊢
  obtain ⟨t, ht, hp⟩ := h
  refine ⟨t ++ suf, ?_, isPrefixOf_append hp⟩
  rw [List.mem_tails] at ht ⊢
  rw [hs]
  obtain ⟨u, hu⟩ := ht
  exact ⟨pre ++ u, by rw [← hu]; simp [List.append_assoc]⟩

theorem pyStrip_decomp (l : List Char) :
    ∃ pre suf, l = pre ++ pyStrip l ++ suf := by
  refine ⟨l.takeWhile isPySpace,
    ((l.dropWhile isPySpace).reverse.takeWhile isPySpace).reverse, ?_⟩
  unfold pyStrip
  conv_lhs => rw [← List.takeWhile_append_dropWhile (p := isPySpace) (l := l)]
  rw [List.append_assoc]
  congr 1
  conv_lhs => rw [← List.reverse_reverse (l.dropWhile isPySpace),
    ← List.takeWhile_append_dropWhile (p := isPySpace)
      (l := (l.dropWhile isPySpace).reverse)]
  rw [List.reverse_append]

theorem containsSub_strip {l p : List Char} (h : containsSubB (pyStrip l) p = true) :
    containsSubB l p = true := by
  obtain ⟨pre, suf, hd⟩ := pyStrip_decomp l
  exact containsSub_mono pre suf hd h

theorem bmLoop_header_empty (ls : List String)
    (h : ∀ raw ∈ ls, containsSubB (pyStripS raw).data "DOMAIN:".data = false) :
    bmLoop true ls = ∅ := by
  induction ls with
  | nil => rfl
  | cons raw rest ih =>
    have hr := h raw (List.mem_cons_self _ _)
    have hrest := fun x hx => h x (List.mem_cons_of_mem _ hx)
    rw [bmLoop]
    simp [hr, ih hrest]

/-- C8: when no line of the content contains the marker `"DOMAIN:"`, the
`header_section` flag of `extract_domains_from_blackmatrix7_domain_txt`
never flips, every line is treated as header, and the extractor returns
the empty set no matter how many lines are valid domains. -/
theorem C8_no_marker_empty (content : String)
    (h : ∀ raw ∈ pyLines content, containsSubB raw.data "DOMAIN:".data = false) :
    extract_domains_from_blackmatrix7_domain_txt content = ∅ := by
  unfold extract_domains_from_blackmatrix7_domain_txt
  apply bmLoop_header_empty
  intro raw hraw
  cases hcc : containsSubB (pyStripS raw).data "DOMAIN:".data
  · rfl
  · exfalso
    have h2 : containsSubB raw.data "DOMAIN:".data = true := containsSub_strip hcc
    rw [h raw hraw] at h2
    simp at h2

/-- C8 witness: a marker-free content of valid domains yields nothing. -/
theorem C8_witness : extract_domains_from_blackmatrix7_domain_txt "a.com\nb.com\n# x\n" = ∅ :=
  C8_no_marker_empty "a.com\nb.com\n# x\n" (by decide)

theorem gfwFallbackLoop_mem (ls : List String) (d : String) :
    d ∈ gfwFallbackLoop ls ↔
      ∃ raw ∈ ls, pyStripS raw = d ∧ d ≠ "" ∧ startsW d "#" = false ∧
        startsW d "!" = false ∧ is_valid_domain d = true := by
  induction ls with
  | nil => simp [gfwFallbackLoop]
  | cons raw rest ih =>
    rw [gfwFallbackLoop]
    split
    case isTrue hcond =>
      simp only [Bool.or_eq_true, decide_eq_true_eq] at hcond
      rw [ih]
      constructor
      · rintro ⟨r, hr, hrest⟩
        exact ⟨r, List.mem_cons_of_mem _ hr, hrest⟩
      · rintro ⟨r, hr, heq, hne, h1, h2, hv⟩
        rcases List.mem_cons.mp hr with rfl | hr'
        · exfalso
          rcases hcond with (hc | hc) | hc
          · rw [heq] at hc
            exact hne hc
          · rw [heq, h1] at hc
            simp at hc
          · rw [heq, h2] at hc
            simp at hc
        · exact ⟨r, hr', heq, hne, h1, h2, hv⟩
    case isFalse hcond =>
      simp only [Bool.or_eq_true, decide_eq_true_eq] at hcond
      push_neg at hcond
      obtain ⟨⟨hne0, h10⟩, h20⟩ := hcond
      rw [Finset.mem_union, ih]
      constructor
      · rintro (hmem | ⟨r, hr, hrest⟩)
        · split at hmem
          case isTrue hv =>
            rw [Finset.mem_singleton] at hmem
            subst hmem
            exact ⟨raw, List.mem_cons_self _ _, rfl, hne0, Bool.eq_false_iff.mpr h10,
              Bool.eq_false_iff.mpr h20, hv⟩
          case isFalse hv => simp at hmem
        · exact ⟨r, List.mem_cons_of_mem _ hr, hrest⟩
      · rintro ⟨r, hr, heq, hne, h1, h2, hv⟩
        rcases List.mem_cons.mp hr with rfl | hr'
        · left
          rw [heq, if_pos hv]
          exact Finset.mem_singleton_self d
        · right
          exact ⟨r, hr', heq, hne, h1, h2, hv⟩

/-- C7: when the Base64 decode of the content fails, the GFWList
extractor raises no exception; it falls back to the plain-text pass over
the raw content, and the result consists of exactly the stripped lines
that are non-blank, do not start with `#` or `!`, and validate directly
as domains. -/
theorem C7_gfwlist_fallback (b64 : String → Option String) (content : String)
    (hfail : b64 content = none) (d : String) :
    d ∈ extract_domains_from_gfwlist b64 content ↔
      ∃ raw ∈ pyLines content, pyStripS raw = d ∧ d ≠ "" ∧ startsW d "#" = false ∧
        startsW d "!" = false ∧ is_valid_domain d = true := by
  unfold extract_domains_from_gfwlist
  rw [hfail]
  exact gfwFallbackLoop_mem (pyLines content) d

/-- C7 witness: a failing decoder on a small content. -/
theorem C7_witness :
    "a.com" ∈ extract_domains_from_gfwlist (fun _ => none) "a.com\n#c\n!d\nbad" :=
  (C7_gfwlist_fallback (fun _ => none) "a.com\n#c\n!d\nbad" rfl "a.com").mpr (by decide)

theorem rcdLoop_elem (ls : List String) (d : String) (hd : d ∈ rcdLoop ls) :
    is_valid_domain d = true ∨ (pyIsAlpha d = true ∧ d.data.length ≤ 5) := by
  induction ls with
  | nil => simp [rcdLoop] at hd
  | cons raw rest ih =>
    rw [rcdLoop] at hd
    split at hd
    · exact ih hd
    · split at hd
      case isTrue hv =>
        rcases Finset.mem_insert.mp hd with rfl | hd'
        · exact Or.inl hv
        · exact ih hd'
      case isFalse =>
        split at hd
        case isTrue halpha =>
          rcases Finset.mem_insert.mp hd with rfl | hd'
          · exact Or.inr halpha
          · exact ih hd'
        case isFalse =>
          split at hd
          case isTrue hdot =>
            rcases Finset.mem_insert.mp hd with rfl | hd'
            · exact Or.inl hdot.2
            · exact ih hd'
          case isFalse => exact ih hd

/-- C5 amended: every element of the returned set is either accepted by
`is_valid_domain` (which itself tolerates one leading dot, so a
leading-dot line is added verbatim) or is a bare alphabetic token of at
most five characters. -/
theorem C5_amended (content : String) (d : String) (hd : d ∈ read_custom_domains content) :
    is_valid_domain d = true ∨ (pyIsAlpha d = true ∧ d.data.length ≤ 5) :=
  rcdLoop_elem (pyLines content) d hd

/-- C5 witness: the leading-dot element `".example.com"` is in the set
for the content `".example.com"` and satisfies the amended invariant. -/
theorem C5_witness :
    is_valid_domain ".example.com" = true ∨
      (pyIsAlpha ".example.com" = true ∧ ".example.com".data.length ≤ 5) :=
  C5_amended ".example.com" ".example.com" (by decide)

theorem dictKeys_replace (m : List (String × List String)) (k' : String) (v : List String) :
    dictKeys (m.map (fun kv => if kv.1 = k' then (k', v) else kv)) = dictKeys m := by
  unfold dictKeys
  rw [List.map_map]
  apply List.map_congr_left
  intro kv hkv
  dsimp
  split
  case isTrue h => exact h.symm
  case isFalse h => rfl

theorem dictKeys_insert_mono {m : List (String × List String)} {k : String}
    (hk : k ∈ dictKeys m) (k' : String) (v : List String) :
    k ∈ dictKeys (dictInsert m k' v) := by
  unfold dictInsert
  split
  · rw [dictKeys_replace]
    exact hk
  · unfold dictKeys at hk ⊢
    rw [List.map_append]
    exact List.mem_append_left _ hk

theorem dictKeys_insert_self (m : List (String × List String)) (k : String)
    (v : List String) : k ∈ dictKeys (dictInsert m k v) := by
  unfold dictInsert
  split
  case isTrue h =>
    rw [dictKeys_replace]
    exact h
  case isFalse h =>
    unfold dictKeys
    rw [List.map_append]
    apply List.mem_append_right
    simp

theorem dictKeys_foldl_mono (doms : List String) (v : List String) {k : String} :
    ∀ m, k ∈ dictKeys m →
      k ∈ dictKeys (doms.foldl (fun m2 d => dictInsert m2 d v) m) := by
  induction doms with
  | nil => exact fun m hk => hk
  | cons d ds ih =>
    intro m hk
    simp only [List.foldl_cons]
    exact ih _ (dictKeys_insert_mono hk d v)

theorem dictKeys_foldl_self (doms : List String) (v : List String) {k : String}
    (hk : k ∈ doms) :
    ∀ m, k ∈ dictKeys (doms.foldl (fun m2 d => dictInsert m2 d v) m) := by
  induction doms with
  | nil => simp at hk
  | cons d ds ih =>
    intro m
    rcases List.mem_cons.mp hk with rfl | hk'
    · simp only [List.foldl_cons]
      exact dictKeys_foldl_mono ds v _ (dictKeys_insert_self m k v)
    · simp only [List.foldl_cons]
      exact ih hk' _

theorem cddLine_keys_mono {st : List (List String × List String) × List (String × List String)}
    {k : String} (raw : String) (hk : k ∈ dictKeys st.2) :
    k ∈ dictKeys (cddLine st raw).2 := by
  unfold cddLine
  split
  · exact hk
  · split
    · exact hk
    · split
      · exact hk
      · exact dictKeys_foldl_mono _ _ _ hk

theorem cddLoop_keys_mono (ls : List String) :
    ∀ (st : List (List String × List String) × List (String × List String)) {k : String},
      k ∈ dictKeys st.2 → k ∈ dictKeys (cddLoop st ls).2 := by
  induction ls with
  | nil => exact fun st _ hk => hk
  | cons raw rest ih =>
    intro st k hk
    rw [cddLoop]
    exact ih _ (cddLine_keys_mono raw hk)

theorem cddLoop_keys_of_mem {raw t : String}
    (hblank : ¬pyStripS raw = "") (hcom : startsW (pyStripS raw) "#" = false)
    (hcolon : (pyStripS raw).data.contains ':' = true)
    (hdns : cddDnsServers (pyStripS raw) ≠ [])
    (ht : t ∈ cddDomains (pyStripS raw)) :
    ∀ ls, raw ∈ ls →
      ∀ st, t ∈ dictKeys (cddLoop st ls).2 := by
  have hdp : (cddDomainsPart (pyStripS raw)).isEmpty = false := by
    cases hdp0 : (cddDomainsPart (pyStripS raw)).isEmpty
    · rfl
    · exfalso
      have hnil : cddDomainsPart (pyStripS raw) = [] := by
        simpa using hdp0
      unfold cddDomains at ht
      rw [hnil, splitOnC_nil] at ht
      simp [pyStrip] at ht
  have hdns' : (cddDnsServers (pyStripS raw)).isEmpty = false := by
    cases hdns0 : (cddDnsServers (pyStripS raw)).isEmpty
    · rfl
    · exact absurd (by simpa using hdns0) hdns
  intro ls
  induction ls with
  | nil =>
    intro h
    simp at h
  | cons r2 rest ih =>
    intro hmem st
    rcases List.mem_cons.mp hmem with rfl | hmem'
    · rw [cddLoop]
      apply cddLoop_keys_mono
      unfold cddLine
      rw [if_neg (by
        intro hx
        rw [Bool.or_eq_true, decide_eq_true_eq] at hx
        rcases hx with hx1 | hx2
        · exact hblank hx1
        · rw [hcom] at hx2
          simp at hx2)]
      rw [if_neg (by rw [hcolon]; simp)]
      rw [if_neg (by rw [Bool.or_eq_true, hdp, hdns']; simp)]
      exact dictKeys_foldl_self _ _ ht _
    · rw [cddLoop]
      exact ih hmem' _

/-- C4 amended: `read_custom_domain_dns` skips a line only when, after
stripping, it is blank, starts with `#`, lacks a colon, or has an empty
domain part or an empty DNS-server list; no domain validation happens, so
every non-empty `/`-separated token of a surviving line appears as a key
of the returned map whether it is a valid domain or not. -/
theorem C4_amended (content : String) (raw : String) (hraw : raw ∈ pyLines content)
    (hblank : ¬pyStripS raw = "") (hcom : startsW (pyStripS raw) "#" = false)
    (hcolon : (pyStripS raw).data.contains ':' = true)
    (hdns : cddDnsServers (pyStripS raw) ≠ [])
    (t : String) (ht : t ∈ cddDomains (pyStripS raw)) :
    t ∈ dictKeys (read_custom_domain_dns content).2 := by
  unfold read_custom_domain_dns
  exact cddLoop_keys_of_mem hblank hcom hcolon hdns ht (pyLines content) hraw ([], [])

/-- C4 witness: the spec's own example line maps both tokens. -/
theorem C4_witness :
    "a.com" ∈ dictKeys (read_custom_domain_dns "a.com/b.com: 1.1.1.1, 8.8.8.8").2 :=
  C4_amended "a.com/b.com: 1.1.1.1, 8.8.8.8" "a.com/b.com: 1.1.1.1, 8.8.8.8" (by decide)
    (by decide) (by decide) (by decide) (by decide) "a.com" (by decide)

theorem plainLoop_true_eq (ls : List String) : plainLoop true ls = plainNoHeader ls := by
  induction ls with
  | nil => rfl
  | cons raw rest ih =>
    rw [plainLoop, plainNoHeader]
    simp [ih]

theorem plainLoop_false_append (m : List String) :
    ∀ pre, (∀ raw ∈ pre, pyStripS raw = "" ∨ startsW (pyStripS raw) "#" = true ∨
        containsSubB (pyStripS raw).data "NAME:".data = false) →
      plainLoop false (pre ++ m) = plainNoHeader pre ∪ plainLoop false m := by
  intro pre
  induction pre with
  | nil =>
    intro h
    simp [plainNoHeader]
  | cons raw rest ih =>
    intro h
    have hr := h raw (List.mem_cons_self _ _)
    have hrest := fun x hx => h x (List.mem_cons_of_mem _ hx)
    rw [List.cons_append, plainLoop, plainNoHeader]
    by_cases hskip : (pyStripS raw = "" || startsW (pyStripS raw) "#") = true
    · rw [if_pos hskip, if_pos hskip]
      exact ih hrest
    · rw [if_neg hskip, if_neg hskip]
      have hname : containsSubB (pyStripS raw).data "NAME:".data = false := by
        rcases hr with h1 | h1 | h1
        · exfalso
          apply hskip
          rw [Bool.or_eq_true, decide_eq_true_eq]
          exact Or.inl h1
        · exfalso
          apply hskip
          rw [Bool.or_eq_true]
          exact Or.inr h1
        · exact h1
      rw [if_neg (by rw [hname]; simp)]
      rw [ih hrest, Finset.union_assoc]

theorem plainLoop_false_name (l : String) (post : List String)
    (hne : ¬pyStripS l = "") (hcom : startsW (pyStripS l) "#" = false)
    (hname : containsSubB (pyStripS l).data "NAME:".data = true) :
    plainLoop false (l :: post) = plainNoHeader post := by
  rw [plainLoop]
  rw [if_neg (by
    intro hx
    rw [Bool.or_eq_true, decide_eq_true_eq] at hx
    rcases hx with h1 | h1
    · exact hne h1
    · rw [hcom] at h1
      simp at h1)]
  rw [if_pos (by rw [hname]; simp)]
  exact plainLoop_true_eq post

/-- C9: the first stripped line that is non-blank, is no `#` comment and
contains `"NAME:"` is discarded whole by `extract_domains_from_plain_text`
and contributes no domain (even if it embeds an http(s) URL); everything
before it (blank, comment or `NAME:`-free lines) and everything after it
is processed by the normal per-line steps `plainNoHeader`, which treat
later `NAME:` lines like any other line. -/
theorem C9_first_name_line (content : String) (pre post : List String) (l : String)
    (hsplit : pyLines content = pre ++ l :: post)
    (hpre : ∀ raw ∈ pre, pyStripS raw = "" ∨ startsW (pyStripS raw) "#" = true ∨
      containsSubB (pyStripS raw).data "NAME:".data = false)
    (hne : ¬pyStripS l = "") (hcom : startsW (pyStripS l) "#" = false)
    (hname : containsSubB (pyStripS l).data "NAME:".data = true) :
    extract_domains_from_plain_text content = plainNoHeader pre ∪ plainNoHeader post := by
  unfold extract_domains_from_plain_text
  rw [hsplit, plainLoop_false_append (l :: post) pre hpre,
    plainLoop_false_name l post hne hcom hname]

/-- C9 witness: the URL in the first `NAME:` line is discarded while the
later `NAME:` line is handed to the normal per-line steps. -/
theorem C9_witness :
    extract_domains_from_plain_text "a.com\nNAME: http://b.com/\nNAME: http://e.com/x\n" =
      plainNoHeader ["a.com"] ∪ plainNoHeader ["NAME: http://e.com/x"] :=
  C9_first_name_line "a.com\nNAME: http://b.com/\nNAME: http://e.com/x\n"
    ["a.com"] ["NAME: http://e.com/x"] "NAME: http://b.com/"
    (by decide) (by decide) (by decide) (by decide) (by decide)

end ADD
